import Mathlib

/-!
Verification development for `crypto_tracker.py` (Live Crypto Tracker).

The Python program keeps, per tracked coin, a bounded price history
(`collections.deque` with `maxlen=MAX_HISTORY`), a current price, and an
optional threshold alert.  A polling cycle (`_process_fetch_result`)
appends a shared timestamp, records per-coin prices, evaluates alerts
(fire-once), and schedules the next cycle.  `set_alert` parses the user's
threshold text with Python's `float`, `clear_history` empties the
histories and the timestamp log, and `save_history_csv` exports a
right-aligned table.

This file is a shallow embedding of that state and those operations:
Python floats that the program stores and compares are modelled as `ℚ`
(every price the program handles comes from JSON numbers; rounding of the
binary representation is not relevant to any property proved here), and
the special values that `float()` can parse from user text are modelled
by the dedicated type `PyFloat`.  Dictionaries keyed by coin ids are
modelled as total functions from `String`; only the keys in `COINS` are
ever read or written, matching the program, which creates exactly those
keys.
-/

set_option maxRecDepth 8000

namespace CryptoTracker

/-- The configured coin ids, from `COINS` in the source. -/
def COINS : List String := ["bitcoin", "ethereum", "solana"]

/-- Bound on stored points per coin, from `MAX_HISTORY` in the source. -/
def MAX_HISTORY : Nat := 120

/-- One `append` on a Python `deque(maxlen := C)`: the new element goes to
the tail and, when the deque already holds `C` elements, the oldest element
is evicted from the head. -/
def dequeAppend (C : Nat) (xs : List α) (x : α) : List α :=
  let ys := xs ++ [x]
  ys.drop (ys.length - C)

/-- Values of Python's `float` as far as `set_alert` can observe them:
a finite value (modelled exactly as a rational), the two infinities, or
`nan`.  These arise because `float(txt)` accepts the strings `inf`,
`infinity` and `nan` (any case, optionally signed) besides numeric
literals. -/
inductive PyFloat where
  | finite (q : ℚ)
  | inf
  | negInf
  | nan
deriving DecidableEq

/-- Python's `price >= thr` for a finite `price` and a `thr` that may be a
special value: comparisons with `nan` are false, every finite value is
`>= -inf` and none is `>= +inf`. -/
def pyGe (p : ℚ) : PyFloat → Bool
  | .finite t => decide (t ≤ p)
  | .inf => false
  | .negInf => true
  | .nan => false

/-- Python's `price <= thr` for a finite `price`, mirroring `pyGe`. -/
def pyLe (p : ℚ) : PyFloat → Bool
  | .finite t => decide (p ≤ t)
  | .inf => true
  | .negInf => false
  | .nan => false

/-- Numeric value of a list of decimal digit characters. -/
def digitsVal (cs : List Char) : Nat :=
  cs.foldl (fun a c => a * 10 + (c.toNat - 48)) 0

/-- Nonempty all-digit run, as required after `e` in a float literal. -/
def expDigits (cs : List Char) : Option Nat :=
  if cs ≠ [] ∧ cs.all Char.isDigit then some (digitsVal cs) else none

/-- Exponent part of a Python float literal: optional sign, then digits. -/
def pyExp : List Char → Option Int
  | '+' :: r => (expDigits r).map (fun n => (n : Int))
  | '-' :: r => (expDigits r).map (fun n => -(n : Int))
  | r => (expDigits r).map (fun n => (n : Int))

/-- Decimal literal of Python's `float` (after sign removal and
lower-casing): `digits [. digits] [e [sign] digits]` with at least one
digit in the mantissa.  The value is computed exactly as a rational. -/
def pyDecimal (cs : List Char) : Option ℚ :=
  let ip := cs.takeWhile Char.isDigit
  let r1 := cs.dropWhile Char.isDigit
  match r1 with
  | [] => if ip.isEmpty then none else some (digitsVal ip)
  | '.' :: r2 =>
      let fp := r2.takeWhile Char.isDigit
      let r3 := r2.dropWhile Char.isDigit
      if ip.isEmpty ∧ fp.isEmpty then none
      else
        let base : ℚ := (digitsVal ip : ℚ) + (digitsVal fp : ℚ) / (10 ^ fp.length)
        match r3 with
        | [] => some base
        | 'e' :: r4 => (pyExp r4).map (fun e => base * (10 : ℚ) ^ e)
        | _ => none
  | 'e' :: r4 =>
      if ip.isEmpty then none
      else (pyExp r4).map (fun e => (digitsVal ip : ℚ) * (10 : ℚ) ^ e)
  | _ => none

/-- Unsigned body of `float(txt)`: the special strings `inf`, `infinity`
and `nan`, or a decimal literal. -/
def pyFloatUnsigned (cs : List Char) (neg : Bool) : Option PyFloat :=
  if cs = ['i', 'n', 'f'] ∨ cs = ['i', 'n', 'f', 'i', 'n', 'i', 't', 'y'] then
    some (if neg then .negInf else .inf)
  else if cs = ['n', 'a', 'n'] then some .nan
  else (pyDecimal cs).map (fun q => .finite (if neg then -q else q))

/-- Python's `str.strip()` with no argument: remove leading and trailing
whitespace. -/
def pyStrip (s : String) : String :=
  ⟨((s.toList.dropWhile Char.isWhitespace).reverse.dropWhile
      Char.isWhitespace).reverse⟩

/-- Python's `txt.replace(",", "")`: every comma removed. -/
def removeCommas (s : String) : String :=
  ⟨s.toList.filter (fun c => c ≠ ',')⟩

/-- Python's builtin `float(s)` on a string, returning `none` where the
builtin raises `ValueError`.  Modelled: surrounding whitespace is
stripped, an optional sign is taken, case is ignored, and the body is a
special string or a decimal literal (underscore digit separators of the
full Python grammar are not modelled; no property here depends on them). -/
def pyFloat (s : String) : Option PyFloat :=
  let cs := ((pyStrip s).toList).map Char.toLower
  match cs with
  | '+' :: r => pyFloatUnsigned r false
  | '-' :: r => pyFloatUnsigned r true
  | r => pyFloatUnsigned r false

/-- Per-coin alert configuration, one entry of `self.alerts`: the dict
`{"threshold": float or None, "direction": "above" or "below"}`. -/
structure AlertConf where
  threshold : Option PyFloat
  direction : String
deriving DecidableEq

/-- The mutable tracker state of `CryptoTrackerApp`: per-coin bounded
price history, the shared timestamp deque, per-coin current price
(`None` until first success), and per-coin alert configuration. -/
structure TrackerState where
  price_history : String → List ℚ
  timestamps : List String
  current_prices : String → Option ℚ
  alerts : String → AlertConf

/-- Pointwise update of a coin-keyed dictionary. -/
def updateFn (f : String → α) (k : String) (v : α) : String → α :=
  fun c => if c = k then v else f c

/-- State after `__init__`: empty histories and timestamp log, no current
prices, and every alert present with `threshold = None`,
`direction = "above"`. -/
def initialState : TrackerState where
  price_history := fun _ => []
  timestamps := []
  current_prices := fun _ => none
  alerts := fun _ => { threshold := none, direction := "above" }

/-- One emitted price-alert notification (`messagebox.showinfo` in
`_process_fetch_result`), carrying the coin, direction, threshold and the
price that triggered it. -/
structure Notification where
  coin : String
  direction : String
  threshold : PyFloat
  price : ℚ
deriving DecidableEq

/-- The alert-evaluation tail of the per-coin body of
`_process_fetch_result` (source lines 258-273): if the coin's alert has a
threshold, trigger when `direction == "above"` and `price >= thr`, or
`direction == "below"` and `price <= thr`; on trigger emit one
notification and set the threshold back to `None` (fire-once). -/
def checkAlert (s : TrackerState) (coin : String) (p : ℚ) :
    TrackerState × List Notification :=
  let conf := s.alerts coin
  match conf.threshold with
  | none => (s, [])
  | some thr =>
    let triggered :=
      (conf.direction == "above" && pyGe p thr) ||
      (conf.direction == "below" && pyLe p thr)
    if triggered then
      ({ s with alerts := updateFn s.alerts coin { conf with threshold := none } },
       [⟨coin, conf.direction, thr, p⟩])
    else (s, [])

/-- The per-coin body of the loop in `_process_fetch_result`: a coin whose
price is `None` is skipped (`continue`, its label shows "N/A"); a coin
with a price has its current price set, the price appended to its bounded
history, and its alert evaluated. -/
def processCoin (s : TrackerState) (coin : String) (price : Option ℚ) :
    TrackerState × List Notification :=
  match price with
  | none => (s, [])
  | some p =>
    checkAlert
      { s with
        current_prices := updateFn s.current_prices coin (some p),
        price_history :=
          updateFn s.price_history coin
            (dequeAppend MAX_HISTORY (s.price_history coin) p) }
      coin p

/-- Sequential processing of the coins of a fetch-result dict
(`for coin, price in prices.items()`), collecting notifications in order. -/
def foldCoins (f : String → Option ℚ) : List String → TrackerState → TrackerState × List Notification
  | [], s => (s, [])
  | c :: rest, s =>
    let r := processCoin s c (f c)
    let r2 := foldCoins f rest r.1
    (r2.1, r.2 ++ r2.2)

/-- Outcome of one call to `_process_fetch_result`. -/
inductive CycleResult where
  | crashed (s : TrackerState)
  | ok (s : TrackerState) (notifs : List Notification) (rescheduled : Bool)

/-- The tracker state held by a cycle result (for `crashed`, the state at
the moment the uncaught exception escaped the Tk callback). -/
def CycleResult.state : CycleResult → TrackerState
  | .crashed s => s
  | .ok s _ _ => s

/-- Notifications emitted by a cycle. -/
def CycleResult.notifs : CycleResult → List Notification
  | .crashed _ => []
  | .ok _ ns _ => ns

/-- `_process_fetch_result(prices)`.  `prices` is `None` when
`fetch_prices` raised, otherwise a dict with exactly the keys `COINS`
(modelled as a function, iterated over `COINS`).  As the source stands,
the `if prices is None:` guard sits inside the function's docstring
(source lines 236-241), so it is not executed: the timestamp is appended
(line 245) and then `prices.items()` raises `AttributeError` on `None`,
before any coin is handled and before `root.after` schedules the next
cycle.  A dict result is processed coin by coin and the next fetch is
scheduled (`rescheduled = true`). -/
def processFetchResult (ts : String) (prices : Option (String → Option ℚ))
    (s : TrackerState) : CycleResult :=
  let s1 := { s with timestamps := dequeAppend MAX_HISTORY s.timestamps ts }
  match prices with
  | none => .crashed s1
  | some f =>
    let r := foldCoins f COINS s1
    .ok r.1 r.2 true

/-- Several successive successful fetch cycles (each one timer-triggered
call of `_process_fetch_result` with a dict), collecting all
notifications. -/
def runCycles : TrackerState → List (String × (String → Option ℚ)) → TrackerState × List Notification
  | s, [] => (s, [])
  | s, (ts, f) :: rest =>
    match processFetchResult ts (some f) s with
    | .crashed s' => (s', [])
    | .ok s' ns _ =>
      let r := runCycles s' rest
      (r.1, ns ++ r.2)

/-- Outcome reported to the user by `set_alert` (its message boxes). -/
inductive SetAlertOutcome where
  | cleared
  | armed (direction : String) (value : PyFloat)
  | invalid
deriving DecidableEq

/-- `set_alert(coin, entry, dir_var)` (source lines 179-193): strip the
entry text; empty text clears the coin's threshold (direction kept);
otherwise parse `float(txt.replace(",", ""))` — on success store
threshold and direction, on `ValueError` report an invalid number and
change nothing. -/
def set_alert (coin : String) (entryText : String) (dirv : String)
    (alerts : String → AlertConf) : (String → AlertConf) × SetAlertOutcome :=
  let txt := pyStrip entryText
  if txt = "" then
    (updateFn alerts coin { alerts coin with threshold := none }, .cleared)
  else
    match pyFloat (removeCommas txt) with
    | some v => (updateFn alerts coin ⟨some v, dirv⟩, .armed dirv v)
    | none => (alerts, .invalid)

/-- `clear_history()` (source lines 340-347): clear each coin's history
deque, then clear the shared timestamp deque; current prices and alerts
are not touched. -/
def clear_history (s : TrackerState) : TrackerState :=
  let s1 := COINS.foldl
    (fun st c => { st with price_history := updateFn st.price_history c [] }) s
  { s1 with timestamps := [] }

/-- Longest stored history, `max(len(v) for v in self.price_history.values())`. -/
def maxLen (s : TrackerState) : Nat :=
  (COINS.map (fun c => (s.price_history c).length)).foldl max 0

/-- Row construction of `save_history_csv` (source lines 298-337), without
the file dialog and file I/O: `none` when every history is empty (the
"No Data" early return), otherwise one row per index up to the longest
history; the first column is the timestamp log left-padded with `""` (an
out-of-range index also yields `""`), and each coin's column is its
history right-aligned to the bottom with empty cells (`none`) above. -/
def save_history_rows (s : TrackerState) :
    Option (List (String × List (Option ℚ))) :=
  if COINS.all (fun c => (s.price_history c).isEmpty) then none
  else
    let mx := maxLen s
    let padded_ts := List.replicate (mx - s.timestamps.length) "" ++ s.timestamps
    some ((List.range mx).map (fun idx =>
      (padded_ts.getD idx "",
       COINS.map (fun coin =>
         let hist := s.price_history coin
         let pad_coin := mx - hist.length
         if pad_coin ≤ idx then some (hist.getD (idx - pad_coin) 0) else none))))

/-- Fetch result in which only bitcoin has a price. -/
def fOnlyBitcoin (p : ℚ) : String → Option ℚ :=
  fun c => if c = "bitcoin" then some p else none

/-- Fetch result in which every coin has the same price. -/
def fAllPrices (p : ℚ) : String → Option ℚ := fun _ => some p

/-- Fetch result in which every coin is unavailable (`None` values). -/
def fNone : String → Option ℚ := fun _ => none

/-- Fresh state with a 30000/above alert armed on bitcoin through
`set_alert`, the starting point of the spec's worked alert example. -/
def alertExampleStart : TrackerState :=
  { initialState with
    alerts := (set_alert "bitcoin" "30000" "above" initialState.alerts).1 }

/-- State with histories of unequal length (bitcoin 3 points, ethereum 1,
solana 0) and a 2-entry timestamp log, the export example of the spec. -/
def exportExample : TrackerState where
  price_history := fun c =>
    if c = "bitcoin" then [1, 2, 3] else if c = "ethereum" then [10] else []
  timestamps := ["t1", "t2"]
  current_prices := fun _ => none
  alerts := fun _ => { threshold := none, direction := "above" }

lemma dequeAppend_length (C : Nat) (xs : List α) (x : α) :
    (dequeAppend C xs x).length = min (xs.length + 1) C := by
  simp only [dequeAppend, List.length_drop, List.length_append,
    List.length_singleton]
  omega

lemma foldl_dequeAppend (C : Nat) (vs : List α) :
    vs.foldl (dequeAppend C) [] = vs.drop (vs.length - C) := by
  induction vs using List.reverseRecOn with
  | nil => simp
  | append_singleton l x ih =>
    rw [List.foldl_append, List.foldl_cons, List.foldl_nil, ih]
    simp only [dequeAppend]
    rw [← List.drop_append_of_le_length (Nat.sub_le l.length C)]
    rw [List.drop_drop]
    simp only [List.length_append, List.length_singleton, List.length_drop]
    congr 1
    omega

lemma checkAlert_price_history (s : TrackerState) (c : String) (p : ℚ) :
    ((checkAlert s c p).1).price_history = s.price_history := by
  unfold checkAlert
  dsimp only
  split
  · rfl
  · split <;> rfl

lemma checkAlert_current_prices (s : TrackerState) (c : String) (p : ℚ) :
    ((checkAlert s c p).1).current_prices = s.current_prices := by
  unfold checkAlert
  dsimp only
  split
  · rfl
  · split <;> rfl

lemma checkAlert_timestamps (s : TrackerState) (c : String) (p : ℚ) :
    ((checkAlert s c p).1).timestamps = s.timestamps := by
  unfold checkAlert
  dsimp only
  split
  · rfl
  · split <;> rfl

lemma checkAlert_alerts_ne (s : TrackerState) (c : String) (p : ℚ)
    (c' : String) (h : c' ≠ c) :
    ((checkAlert s c p).1).alerts c' = s.alerts c' := by
  unfold checkAlert
  dsimp only
  split
  · rfl
  · split
    · simp [updateFn, h]
    · rfl

lemma checkAlert_no_notif (s : TrackerState) (c : String) (p : ℚ)
    (h : (s.alerts c).threshold = none) : checkAlert s c p = (s, []) := by
  simp [checkAlert, h]

lemma checkAlert_threshold_none (s : TrackerState) (c : String) (p : ℚ)
    (c' : String) (h : (s.alerts c').threshold = none) :
    (((checkAlert s c p).1).alerts c').threshold = none := by
  by_cases hc : c' = c
  · subst hc
    rw [checkAlert_no_notif s c' p h]
    exact h
  · rw [checkAlert_alerts_ne s c p c' hc]
    exact h

lemma checkAlert_notif_coin (s : TrackerState) (c : String) (p : ℚ) :
    ∀ n ∈ (checkAlert s c p).2, n.coin = c := by
  unfold checkAlert
  dsimp only
  split
  · simp
  · split <;> simp

lemma processCoin_none (s : TrackerState) (c : String) :
    processCoin s c none = (s, []) := rfl

lemma processCoin_timestamps (s : TrackerState) (c : String) (v : Option ℚ) :
    ((processCoin s c v).1).timestamps = s.timestamps := by
  cases v with
  | none => rfl
  | some p => exact checkAlert_timestamps _ c p

lemma processCoin_history_ne (s : TrackerState) (c : String) (v : Option ℚ)
    (c' : String) (h : c' ≠ c) :
    ((processCoin s c v).1).price_history c' = s.price_history c' := by
  cases v with
  | none => rfl
  | some p =>
    unfold processCoin
    rw [checkAlert_price_history]
    simp [updateFn, h]

lemma processCoin_current_ne (s : TrackerState) (c : String) (v : Option ℚ)
    (c' : String) (h : c' ≠ c) :
    ((processCoin s c v).1).current_prices c' = s.current_prices c' := by
  cases v with
  | none => rfl
  | some p =>
    unfold processCoin
    rw [checkAlert_current_prices]
    simp [updateFn, h]

lemma processCoin_alerts_ne (s : TrackerState) (c : String) (v : Option ℚ)
    (c' : String) (h : c' ≠ c) :
    ((processCoin s c v).1).alerts c' = s.alerts c' := by
  cases v with
  | none => rfl
  | some p => exact checkAlert_alerts_ne _ c p c' h

lemma processCoin_history_self (s : TrackerState) (c : String) (p : ℚ) :
    ((processCoin s c (some p)).1).price_history c =
      dequeAppend MAX_HISTORY (s.price_history c) p := by
  unfold processCoin
  rw [checkAlert_price_history]
  simp [updateFn]

lemma processCoin_current_self (s : TrackerState) (c : String) (p : ℚ) :
    ((processCoin s c (some p)).1).current_prices c = some p := by
  unfold processCoin
  rw [checkAlert_current_prices]
  simp [updateFn]

lemma processCoin_threshold_none (s : TrackerState) (c : String)
    (v : Option ℚ) (c' : String) (h : (s.alerts c').threshold = none) :
    (((processCoin s c v).1).alerts c').threshold = none := by
  cases v with
  | none => exact h
  | some p => exact checkAlert_threshold_none _ c p c' h

lemma processCoin_no_notif (s : TrackerState) (c : String) (v : Option ℚ)
    (h : (s.alerts c).threshold = none) : (processCoin s c v).2 = [] := by
  cases v with
  | none => rfl
  | some p =>
    unfold processCoin
    dsimp only
    rw [checkAlert_no_notif]
    exact h

lemma processCoin_notif_coin (s : TrackerState) (c : String) (v : Option ℚ) :
    ∀ n ∈ (processCoin s c v).2, n.coin = c := by
  cases v with
  | none => simp [processCoin]
  | some p => exact checkAlert_notif_coin _ c p

lemma foldCoins_timestamps (f : String → Option ℚ) :
    ∀ (L : List String) (s : TrackerState),
      ((foldCoins f L s).1).timestamps = s.timestamps := by
  intro L
  induction L with
  | nil => intro s; rfl
  | cons a rest ih =>
    intro s
    show ((foldCoins f rest (processCoin s a (f a)).1).1).timestamps = _
    rw [ih, processCoin_timestamps]

lemma foldCoins_history_not_mem (f : String → Option ℚ) (c : String) :
    ∀ (L : List String) (s : TrackerState), c ∉ L →
      ((foldCoins f L s).1).price_history c = s.price_history c := by
  intro L
  induction L with
  | nil => intro s _; rfl
  | cons a rest ih =>
    intro s h
    show ((foldCoins f rest (processCoin s a (f a)).1).1).price_history c = _
    rw [ih _ (fun hm => h (List.mem_cons_of_mem a hm)),
      processCoin_history_ne _ _ _ _ (fun hc => h (List.mem_cons.mpr (Or.inl hc)))]

lemma foldCoins_current_not_mem (f : String → Option ℚ) (c : String) :
    ∀ (L : List String) (s : TrackerState), c ∉ L →
      ((foldCoins f L s).1).current_prices c = s.current_prices c := by
  intro L
  induction L with
  | nil => intro s _; rfl
  | cons a rest ih =>
    intro s h
    show ((foldCoins f rest (processCoin s a (f a)).1).1).current_prices c = _
    rw [ih _ (fun hm => h (List.mem_cons_of_mem a hm)),
      processCoin_current_ne _ _ _ _ (fun hc => h (List.mem_cons.mpr (Or.inl hc)))]

lemma foldCoins_history_none (f : String → Option ℚ) (c : String)
    (hf : f c = none) :
    ∀ (L : List String) (s : TrackerState),
      ((foldCoins f L s).1).price_history c = s.price_history c := by
  intro L
  induction L with
  | nil => intro s; rfl
  | cons a rest ih =>
    intro s
    show ((foldCoins f rest (processCoin s a (f a)).1).1).price_history c = _
    rw [ih]
    by_cases hc : c = a
    · subst hc
      rw [hf, processCoin_none]
    · rw [processCoin_history_ne _ _ _ _ hc]

lemma foldCoins_current_none (f : String → Option ℚ) (c : String)
    (hf : f c = none) :
    ∀ (L : List String) (s : TrackerState),
      ((foldCoins f L s).1).current_prices c = s.current_prices c := by
  intro L
  induction L with
  | nil => intro s; rfl
  | cons a rest ih =>
    intro s
    show ((foldCoins f rest (processCoin s a (f a)).1).1).current_prices c = _
    rw [ih]
    by_cases hc : c = a
    · subst hc
      rw [hf, processCoin_none]
    · rw [processCoin_current_ne _ _ _ _ hc]

lemma foldCoins_some (f : String → Option ℚ) (c : String) (p : ℚ)
    (hf : f c = some p) :
    ∀ (L : List String) (s : TrackerState), L.Nodup → c ∈ L →
      ((foldCoins f L s).1).price_history c =
        dequeAppend MAX_HISTORY (s.price_history c) p ∧
      ((foldCoins f L s).1).current_prices c = some p := by
  intro L
  induction L with
  | nil => intro s _ hm; exact absurd hm (List.not_mem_nil c)
  | cons a rest ih =>
    intro s hn hm
    have hrest : rest.Nodup := (List.nodup_cons.mp hn).2
    by_cases hc : c = a
    · subst hc
      have hnot : c ∉ rest := (List.nodup_cons.mp hn).1
      constructor
      · show ((foldCoins f rest (processCoin s c (f c)).1).1).price_history c = _
        rw [foldCoins_history_not_mem f c rest _ hnot, hf,
          processCoin_history_self]
      · show ((foldCoins f rest (processCoin s c (f c)).1).1).current_prices c = _
        rw [foldCoins_current_not_mem f c rest _ hnot, hf,
          processCoin_current_self]
    · have hm' : c ∈ rest := by
        rcases List.mem_cons.mp hm with h | h
        · exact absurd h hc
        · exact h
      have := ih (processCoin s a (f a)).1 hrest hm'
      constructor
      · show ((foldCoins f rest (processCoin s a (f a)).1).1).price_history c = _
        rw [this.1, processCoin_history_ne _ _ _ _ hc]
      · exact this.2

lemma foldCoins_threshold_none (f : String → Option ℚ) (c : String) :
    ∀ (L : List String) (s : TrackerState), (s.alerts c).threshold = none →
      (((foldCoins f L s).1).alerts c).threshold = none ∧
      ∀ n ∈ (foldCoins f L s).2, n.coin ≠ c := by
  intro L
  induction L with
  | nil => intro s h; exact ⟨h, by simp [foldCoins]⟩
  | cons a rest ih =>
    intro s h
    have hstep : (((processCoin s a (f a)).1).alerts c).threshold = none :=
      processCoin_threshold_none s a (f a) c h
    have hrest := ih (processCoin s a (f a)).1 hstep
    refine ⟨hrest.1, ?_⟩
    intro n hn
    have : n ∈ (processCoin s a (f a)).2 ∨ n ∈ (foldCoins f rest (processCoin s a (f a)).1).2 := by
      simpa [foldCoins] using hn
    rcases this with hn' | hn'
    · by_cases hc : a = c
      · subst hc
        rw [processCoin_no_notif s a (f a) h] at hn'
        exact absurd hn' (List.not_mem_nil n)
      · rw [processCoin_notif_coin s a (f a) n hn']
        exact hc
    · exact hrest.2 n hn'

lemma runCycles_cons (s : TrackerState) (ts : String) (f : String → Option ℚ)
    (rest : List (String × (String → Option ℚ))) :
    runCycles s ((ts, f) :: rest) =
      ((runCycles ((foldCoins f COINS
          { s with timestamps := dequeAppend MAX_HISTORY s.timestamps ts }).1) rest).1,
       (foldCoins f COINS
          { s with timestamps := dequeAppend MAX_HISTORY s.timestamps ts }).2 ++
       (runCycles ((foldCoins f COINS
          { s with timestamps := dequeAppend MAX_HISTORY s.timestamps ts }).1) rest).2) := rfl

lemma runCycles_threshold_none (c : String) :
    ∀ (cycles : List (String × (String → Option ℚ))) (s : TrackerState),
      (s.alerts c).threshold = none →
      (((runCycles s cycles).1).alerts c).threshold = none ∧
      ∀ n ∈ (runCycles s cycles).2, n.coin ≠ c := by
  intro cycles
  induction cycles with
  | nil => intro s h; exact ⟨h, by simp [runCycles]⟩
  | cons cyc rest ih =>
    obtain ⟨ts, f⟩ := cyc
    intro s h
    rw [runCycles_cons]
    have hfold := foldCoins_threshold_none f c COINS
      { s with timestamps := dequeAppend MAX_HISTORY s.timestamps ts } h
    have hrest := ih _ hfold.1
    refine ⟨hrest.1, ?_⟩
    intro n hn
    rcases List.mem_append.mp hn with hn' | hn'
    · exact hfold.2 n hn'
    · exact hrest.2 n hn'

lemma foldCoins_history_cases (f : String → Option ℚ) (c : String)
    (s : TrackerState) :
    ((foldCoins f COINS s).1).price_history c = s.price_history c ∨
    ∃ p, f c = some p ∧ ((foldCoins f COINS s).1).price_history c =
      dequeAppend MAX_HISTORY (s.price_history c) p := by
  by_cases hm : c ∈ COINS
  · cases hf : f c with
    | none => exact Or.inl (foldCoins_history_none f c hf COINS s)
    | some p =>
      exact Or.inr ⟨p, rfl, (foldCoins_some f c p hf COINS s (by decide) hm).1⟩
  · exact Or.inl (foldCoins_history_not_mem f c COINS s hm)

lemma runCycles_invariant :
    ∀ (cycles : List (String × (String → Option ℚ))) (s : TrackerState),
      s.timestamps.length ≤ MAX_HISTORY →
      (∀ c, (s.price_history c).length ≤ s.timestamps.length) →
      ((runCycles s cycles).1).timestamps.length ≤ MAX_HISTORY ∧
      ∀ c, (((runCycles s cycles).1).price_history c).length ≤
        ((runCycles s cycles).1).timestamps.length := by
  intro cycles
  induction cycles with
  | nil => intro s h1 h2; exact ⟨h1, h2⟩
  | cons cyc rest ih =>
    obtain ⟨ts, f⟩ := cyc
    intro s h1 h2
    rw [runCycles_cons]
    apply ih
    · rw [foldCoins_timestamps]
      show (dequeAppend MAX_HISTORY s.timestamps ts).length ≤ MAX_HISTORY
      rw [dequeAppend_length]
      omega
    · intro c
      rw [foldCoins_timestamps]
      show _ ≤ (dequeAppend MAX_HISTORY s.timestamps ts).length
      rcases foldCoins_history_cases f c
          { s with timestamps := dequeAppend MAX_HISTORY s.timestamps ts } with h | ⟨p, _, h⟩
      · rw [h]
        show (s.price_history c).length ≤ _
        rw [dequeAppend_length]
        have := h2 c
        omega
      · rw [h]
        show (dequeAppend MAX_HISTORY (s.price_history c) p).length ≤ _
        rw [dequeAppend_length, dequeAppend_length]
        have := h2 c
        omega

lemma clearFold_history :
    ∀ (L : List String) (s : TrackerState) (c : String),
      ((L.foldl
        (fun st c' => { st with price_history := updateFn st.price_history c' [] })
        s)).price_history c = if c ∈ L then [] else s.price_history c := by
  intro L
  induction L with
  | nil => intro s c; simp
  | cons a rest ih =>
    intro s c
    rw [List.foldl_cons, ih]
    by_cases hm : c ∈ rest
    · simp [hm]
    · by_cases hc : c = a
      · subst hc
        simp [hm, updateFn]
      · simp [hm, hc, updateFn]

lemma clearFold_frame :
    ∀ (L : List String) (s : TrackerState),
      ((L.foldl
        (fun st c' => { st with price_history := updateFn st.price_history c' [] })
        s)).timestamps = s.timestamps ∧
      ((L.foldl
        (fun st c' => { st with price_history := updateFn st.price_history c' [] })
        s)).current_prices = s.current_prices ∧
      ((L.foldl
        (fun st c' => { st with price_history := updateFn st.price_history c' [] })
        s)).alerts = s.alerts := by
  intro L
  induction L with
  | nil => intro s; exact ⟨rfl, rfl, rfl⟩
  | cons a rest ih =>
    intro s
    rw [List.foldl_cons]
    exact ih _

lemma clear_history_spec (s : TrackerState) :
    (clear_history s).timestamps = [] ∧
    (∀ c, (clear_history s).price_history c =
      if c ∈ COINS then [] else s.price_history c) ∧
    (clear_history s).current_prices = s.current_prices ∧
    (clear_history s).alerts = s.alerts := by
  refine ⟨rfl, ?_, ?_, ?_⟩
  · intro c
    exact clearFold_history COINS s c
  · exact (clearFold_frame COINS s).2.1
  · exact (clearFold_frame COINS s).2.2

lemma processCoin_armed (s : TrackerState) (coin dir : String)
    (thr : PyFloat) (p : ℚ) (h : s.alerts coin = ⟨some thr, dir⟩) :
    processCoin s coin (some p) =
      (if (dir == "above" && pyGe p thr) || (dir == "below" && pyLe p thr) then
        ({ s with
            current_prices := updateFn s.current_prices coin (some p),
            price_history := updateFn s.price_history coin
              (dequeAppend MAX_HISTORY (s.price_history coin) p),
            alerts := updateFn s.alerts coin ⟨none, dir⟩ },
         [⟨coin, dir, thr, p⟩])
      else
        ({ s with
            current_prices := updateFn s.current_prices coin (some p),
            price_history := updateFn s.price_history coin
              (dequeAppend MAX_HISTORY (s.price_history coin) p) },
         [])) := by
  unfold processCoin checkAlert
  dsimp only
  simp [h]

/-- Claim C1: the spec says a cycle whose fetch failed globally marks every
coin unavailable, does not crash, and schedules the next cycle.  The code
disagrees: the `if prices is None:` guard of `_process_fetch_result` is
trapped inside the function's docstring, so after appending the timestamp
the call `prices.items()` raises `AttributeError` — the cycle crashes with
no coin handled and no next cycle scheduled via `root.after`. -/
theorem fetch_failure_cycle_crashes (s : TrackerState) (ts : String) :
    processFetchResult ts none s =
      .crashed { s with timestamps := dequeAppend MAX_HISTORY s.timestamps ts } := rfl

/-- Claim C2: any sequence of `N` appends into the bounded history deque of
capacity `MAX_HISTORY` yields length `min N MAX_HISTORY`, the content is
exactly the last `MAX_HISTORY` appended values in append order, and no
single append can push the length above `MAX_HISTORY`. -/
theorem price_history_bounded_fifo (vs : List ℚ) :
    (vs.foldl (dequeAppend MAX_HISTORY) []).length = min vs.length MAX_HISTORY ∧
    vs.foldl (dequeAppend MAX_HISTORY) [] = vs.drop (vs.length - MAX_HISTORY) ∧
    ∀ (xs : List ℚ) (x : ℚ), (dequeAppend MAX_HISTORY xs x).length ≤ MAX_HISTORY := by
  refine ⟨?_, foldl_dequeAppend MAX_HISTORY vs, ?_⟩
  · rw [foldl_dequeAppend, List.length_drop]
    omega
  · intro xs x
    rw [dequeAppend_length]
    omega

/-- Claim C3: with an alert `(t, dir)` armed on a coin, a recorded price
`p` triggers iff `dir = "above"` and `p ≥ t`, or `dir = "below"` and
`p ≤ t`; a trigger emits exactly one notification and clears the
threshold (fire-once), and a non-trigger leaves the alert armed.  On the
spec's example (threshold 30000, direction above, prices 29000, 29999,
30050) the alert fires exactly once, at the third sample, and is absent
after. -/
theorem alert_trigger_iff_fire_once (s : TrackerState) (coin dir : String)
    (t p : ℚ) :
    ((processCoin { s with alerts := updateFn s.alerts coin ⟨some (.finite t), dir⟩ }
        coin (some p)).2 ≠ [] ↔
      ((dir = "above" ∧ t ≤ p) ∨ (dir = "below" ∧ p ≤ t))) ∧
    ((processCoin { s with alerts := updateFn s.alerts coin ⟨some (.finite t), dir⟩ }
        coin (some p)).2 ≠ [] →
      (processCoin { s with alerts := updateFn s.alerts coin ⟨some (.finite t), dir⟩ }
        coin (some p)).2 = [⟨coin, dir, .finite t, p⟩] ∧
      (((processCoin { s with alerts := updateFn s.alerts coin ⟨some (.finite t), dir⟩ }
        coin (some p)).1).alerts coin).threshold = none) ∧
    ((processCoin { s with alerts := updateFn s.alerts coin ⟨some (.finite t), dir⟩ }
        coin (some p)).2 = [] →
      ((processCoin { s with alerts := updateFn s.alerts coin ⟨some (.finite t), dir⟩ }
        coin (some p)).1).alerts coin = ⟨some (.finite t), dir⟩) ∧
    (runCycles alertExampleStart
      [("t1", fOnlyBitcoin 29000), ("t2", fOnlyBitcoin 29999)]).2 = [] ∧
    (runCycles alertExampleStart
      [("t1", fOnlyBitcoin 29000), ("t2", fOnlyBitcoin 29999),
       ("t3", fOnlyBitcoin 30050)]).2 =
      [⟨"bitcoin", "above", .finite 30000, 30050⟩] ∧
    ((runCycles alertExampleStart
      [("t1", fOnlyBitcoin 29000), ("t2", fOnlyBitcoin 29999),
       ("t3", fOnlyBitcoin 30050)]).1.alerts "bitcoin").threshold = none := by
  have h0 : ({ s with alerts := updateFn s.alerts coin ⟨some (.finite t), dir⟩ } :
      TrackerState).alerts coin = ⟨some (.finite t), dir⟩ := by
    simp [updateFn]
  have hred := processCoin_armed _ coin dir (.finite t) p h0
  refine ⟨?_, ?_, ?_, by decide, by decide, by decide⟩
  · rw [hred]
    by_cases htr : ((dir == "above" && pyGe p (.finite t)) ||
        (dir == "below" && pyLe p (.finite t))) = true
    · rw [if_pos htr]
      simp only [pyGe, pyLe, Bool.or_eq_true, Bool.and_eq_true, beq_iff_eq,
        decide_eq_true_eq] at htr
      simpa using htr
    · rw [if_neg htr]
      simp only [pyGe, pyLe, Bool.or_eq_true, Bool.and_eq_true, beq_iff_eq,
        decide_eq_true_eq] at htr
      simpa using htr
  · rw [hred]
    by_cases htr : ((dir == "above" && pyGe p (.finite t)) ||
        (dir == "below" && pyLe p (.finite t))) = true
    · rw [if_pos htr]
      intro
      exact ⟨rfl, by simp [updateFn]⟩
    · rw [if_neg htr]
      intro hne
      exact absurd rfl hne
  · rw [hred]
    by_cases htr : ((dir == "above" && pyGe p (.finite t)) ||
        (dir == "below" && pyLe p (.finite t))) = true
    · rw [if_pos htr]
      intro hl
      exact absurd hl (by simp)
    · rw [if_neg htr]
      intro
      exact h0

/-- Claim C4: a threshold string that `float()` cannot parse is rejected by
`set_alert` with a validation-error outcome (not a crash), and the whole
alert map — in particular the coin's threshold and direction — is left
unchanged. -/
theorem set_alert_rejects_non_numeric (alerts : String → AlertConf)
    (coin txt dirv : String) (h1 : pyStrip txt ≠ "")
    (h2 : pyFloat (removeCommas (pyStrip txt)) = none) :
    set_alert coin txt dirv alerts = (alerts, .invalid) := by
  unfold set_alert
  dsimp only
  rw [if_neg h1, h2]

/-- Witness for C4 at the spec's example input `"abc"`. -/
theorem set_alert_rejects_non_numeric_witness :
    pyStrip "abc" ≠ "" ∧
    pyFloat (removeCommas (pyStrip "abc")) = none ∧
    set_alert "bitcoin" "abc" "above" initialState.alerts =
      (initialState.alerts, .invalid) :=
  ⟨by decide, by decide,
    set_alert_rejects_non_numeric initialState.alerts "bitcoin" "abc" "above"
      (by decide) (by decide)⟩

/-- Claim C5: within one processed fetch cycle, a coin reported unavailable
(`None`) keeps its previous current price and history untouched, while a
coin with a known price gets its current price set and the price appended
to its bounded history — per-coin independence. -/
theorem cycle_per_coin_independence (s : TrackerState) (ts : String)
    (f : String → Option ℚ) (x y : String) (py : ℚ)
    (hx : x ∈ COINS) (hfx : f x = none) (hy : y ∈ COINS) (hfy : f y = some py) :
    ((processFetchResult ts (some f) s).state).current_prices x =
      s.current_prices x ∧
    ((processFetchResult ts (some f) s).state).price_history x =
      s.price_history x ∧
    ((processFetchResult ts (some f) s).state).current_prices y = some py ∧
    ((processFetchResult ts (some f) s).state).price_history y =
      dequeAppend MAX_HISTORY (s.price_history y) py := by
  have hs : (processFetchResult ts (some f) s).state =
      (foldCoins f COINS
        { s with timestamps := dequeAppend MAX_HISTORY s.timestamps ts }).1 := rfl
  rw [hs]
  refine ⟨?_, ?_, ?_, ?_⟩
  · rw [foldCoins_current_none f x hfx]
  · rw [foldCoins_history_none f x hfx]
  · exact (foldCoins_some f y py hfy COINS _ (by decide) hy).2
  · exact (foldCoins_some f y py hfy COINS _ (by decide) hy).1

/-- Witness for C5: a cycle in which only bitcoin has a price, applied to
the fresh state; ethereum stays untouched, bitcoin is updated. -/
theorem cycle_per_coin_independence_witness :
    ("ethereum" ∈ COINS) ∧ fOnlyBitcoin 5 "ethereum" = none ∧
    ("bitcoin" ∈ COINS) ∧ fOnlyBitcoin 5 "bitcoin" = some 5 ∧
    (((processFetchResult "t" (some (fOnlyBitcoin 5)) initialState).state).current_prices
        "ethereum" = initialState.current_prices "ethereum" ∧
     ((processFetchResult "t" (some (fOnlyBitcoin 5)) initialState).state).price_history
        "ethereum" = initialState.price_history "ethereum" ∧
     ((processFetchResult "t" (some (fOnlyBitcoin 5)) initialState).state).current_prices
        "bitcoin" = some 5 ∧
     ((processFetchResult "t" (some (fOnlyBitcoin 5)) initialState).state).price_history
        "bitcoin" =
       dequeAppend MAX_HISTORY (initialState.price_history "bitcoin") 5) :=
  ⟨by decide, by decide, by decide, by decide,
    cycle_per_coin_independence initialState "t" (fOnlyBitcoin 5)
      "ethereum" "bitcoin" 5 (by decide) (by decide) (by decide) (by decide)⟩

/-- Claim C6: `set_alert` with an empty threshold string reports the alert
cleared, sets the coin's threshold to `None` (direction kept), and from
the cleared state no sequence of processed fetch cycles ever emits a
notification for that coin. -/
theorem empty_threshold_clears_alert (s : TrackerState) (coin dirv : String)
    (cycles : List (String × (String → Option ℚ))) :
    (set_alert coin "" dirv s.alerts).2 = .cleared ∧
    ((set_alert coin "" dirv s.alerts).1 coin).threshold = none ∧
    ((set_alert coin "" dirv s.alerts).1 coin).direction =
      (s.alerts coin).direction ∧
    ∀ n ∈ (runCycles
        { s with alerts := (set_alert coin "" dirv s.alerts).1 } cycles).2,
      n.coin ≠ coin := by
  have hsa : set_alert coin "" dirv s.alerts =
      (updateFn s.alerts coin { s.alerts coin with threshold := none },
       .cleared) := rfl
  rw [hsa]
  refine ⟨rfl, by simp [updateFn], by simp [updateFn], ?_⟩
  have h : (({ s with
      alerts := updateFn s.alerts coin { s.alerts coin with threshold := none } } :
      TrackerState).alerts coin).threshold = none := by
    simp [updateFn]
  exact (runCycles_threshold_none coin cycles _ h).2

/-- Counterexample to claim C7: `set_alert` performs no finiteness check —
the string `"inf"` parses through Python's `float()` to a non-finite value
and arms the alert with it instead of being rejected. -/
theorem set_alert_accepts_inf :
    (set_alert "bitcoin" "inf" "above" initialState.alerts).2 =
      SetAlertOutcome.armed "above" PyFloat.inf ∧
    ((set_alert "bitcoin" "inf" "above" initialState.alerts).1 "bitcoin").threshold =
      some PyFloat.inf := by
  constructor
  · decide
  · decide

/-- Claim C7 as amended: `set_alert` accepts every threshold string that
`float()` parses — finite or not, including `"inf"` and `"nan"` — and arms
the coin's alert with the parsed value and chosen direction; there is no
finiteness validation. -/
theorem set_alert_arms_any_parsed_value (alerts : String → AlertConf)
    (coin txt dirv : String) (v : PyFloat) (h1 : pyStrip txt ≠ "")
    (h2 : pyFloat (removeCommas (pyStrip txt)) = some v) :
    set_alert coin txt dirv alerts =
      (updateFn alerts coin ⟨some v, dirv⟩, .armed dirv v) := by
  unfold set_alert
  dsimp only
  rw [if_neg h1, h2]

/-- Witness for the amended C7 at the non-finite input `"inf"`. -/
theorem set_alert_arms_any_parsed_value_witness :
    pyStrip "inf" ≠ "" ∧
    pyFloat (removeCommas (pyStrip "inf")) = some PyFloat.inf ∧
    set_alert "ethereum" "inf" "below" initialState.alerts =
      (updateFn initialState.alerts "ethereum" ⟨some PyFloat.inf, "below"⟩,
       .armed "below" PyFloat.inf) :=
  ⟨by decide, by decide,
    set_alert_arms_any_parsed_value initialState.alerts "ethereum" "inf"
      "below" PyFloat.inf (by decide) (by decide)⟩

/-- Claim C8: `clear_history` empties every coin's history and the shared
timestamp log while leaving current prices and alerts exactly as they
were, and one successful fetch cycle afterwards leaves each fetched coin's
history holding exactly the one new price, regardless of prior size. -/
theorem clear_history_frame (s : TrackerState) (ts : String)
    (f : String → Option ℚ) (c : String) (p : ℚ)
    (hc : c ∈ COINS) (hf : f c = some p) :
    (clear_history s).timestamps = [] ∧
    (∀ c' ∈ COINS, (clear_history s).price_history c' = []) ∧
    (clear_history s).current_prices = s.current_prices ∧
    (clear_history s).alerts = s.alerts ∧
    ((processFetchResult ts (some f) (clear_history s)).state).price_history c =
      [p] := by
  obtain ⟨h1, h2, h3, h4⟩ := clear_history_spec s
  refine ⟨h1, ?_, h3, h4, ?_⟩
  · intro c' hc'
    rw [h2 c', if_pos hc']
  · have hs : (processFetchResult ts (some f) (clear_history s)).state =
        (foldCoins f COINS
          { clear_history s with
            timestamps := dequeAppend MAX_HISTORY (clear_history s).timestamps ts }).1 := rfl
    rw [hs, (foldCoins_some f c p hf COINS _ (by decide) hc).1]
    show dequeAppend MAX_HISTORY ((clear_history s).price_history c) p = [p]
    rw [h2 c, if_pos hc]
    rfl

/-- Witness for C8: clearing a state that already holds history, then one
cycle in which every coin has price 7, leaves bitcoin's history at `[7]`. -/
theorem clear_history_frame_witness :
    ("bitcoin" ∈ COINS) ∧ fAllPrices 7 "bitcoin" = some 7 ∧
    ((clear_history exportExample).timestamps = [] ∧
     (∀ c' ∈ COINS, (clear_history exportExample).price_history c' = []) ∧
     (clear_history exportExample).current_prices =
       exportExample.current_prices ∧
     (clear_history exportExample).alerts = exportExample.alerts ∧
     ((processFetchResult "t3" (some (fAllPrices 7))
        (clear_history exportExample)).state).price_history "bitcoin" = [7]) :=
  ⟨by decide, by decide,
    clear_history_frame exportExample "t3" (fAllPrices 7) "bitcoin" 7
      (by decide) (by decide)⟩

lemma getD_map_get (f : α → β) (l : List α) (k : Nat) (hk : k < l.length)
    (d : β) : (l.map f).getD k d = f (l.get ⟨k, hk⟩) := by
  rw [List.getD, List.get?_map, List.get?_eq_get hk]
  rfl

/-- Claim C9: for a state with at least one non-empty history, the export
produces one row per index up to the longest history; each coin's column
equals its history right-aligned to the bottom rows with empty cells
(`none`) above, and — when the timestamp log is no longer than the longest
history — the first column is the timestamp log left-padded with empty
strings. -/
theorem export_right_aligned (s : TrackerState)
    (h : COINS.all (fun c => (s.price_history c).isEmpty) = false) :
    ∃ rows, save_history_rows s = some rows ∧
      rows.length = maxLen s ∧
      (∀ (i : Nat) (hi : i < rows.length) (k : Nat) (hk : k < COINS.length),
        (rows.get ⟨i, hi⟩).2.getD k none =
          if maxLen s - (s.price_history (COINS.get ⟨k, hk⟩)).length ≤ i then
            some ((s.price_history (COINS.get ⟨k, hk⟩)).getD
              (i - (maxLen s - (s.price_history (COINS.get ⟨k, hk⟩)).length)) 0)
          else none) ∧
      (s.timestamps.length ≤ maxLen s →
        rows.map Prod.fst =
          List.replicate (maxLen s - s.timestamps.length) "" ++ s.timestamps) := by
  refine ⟨(List.range (maxLen s)).map (fun idx =>
      ((List.replicate (maxLen s - s.timestamps.length) "" ++ s.timestamps).getD
          idx "",
       COINS.map (fun coin =>
         if maxLen s - (s.price_history coin).length ≤ idx then
           some ((s.price_history coin).getD
             (idx - (maxLen s - (s.price_history coin).length)) 0)
         else none))), ?_, ?_, ?_, ?_⟩
  · simp only [save_history_rows, h, Bool.false_eq_true, if_false]
  · simp
  · intro i hi k hk
    simp only [List.length_map, List.length_range] at hi
    simp only [List.get_map, List.get_range]
    rw [getD_map_get _ COINS k hk]
  · intro hts
    apply List.ext_get
    · simp
      omega
    · intro i h1 h2
      simp only [List.get_map, List.get_range, List.map_map, Function.comp]
      rw [List.getD, List.get?_eq_get h2]
      rfl

/-- Witness for C9 at the spec's example (bitcoin 3 points, ethereum 1,
solana 0, two timestamps). -/
theorem export_right_aligned_witness :
    COINS.all (fun c => (exportExample.price_history c).isEmpty) = false ∧
    (∃ rows, save_history_rows exportExample = some rows ∧
      rows.length = maxLen exportExample ∧
      (∀ (i : Nat) (hi : i < rows.length) (k : Nat) (hk : k < COINS.length),
        (rows.get ⟨i, hi⟩).2.getD k none =
          if maxLen exportExample -
              (exportExample.price_history (COINS.get ⟨k, hk⟩)).length ≤ i then
            some ((exportExample.price_history (COINS.get ⟨k, hk⟩)).getD
              (i - (maxLen exportExample -
                (exportExample.price_history (COINS.get ⟨k, hk⟩)).length)) 0)
          else none) ∧
      (exportExample.timestamps.length ≤ maxLen exportExample →
        rows.map Prod.fst =
          List.replicate (maxLen exportExample - exportExample.timestamps.length)
            "" ++ exportExample.timestamps)) :=
  ⟨by decide, export_right_aligned exportExample (by decide)⟩

/-- Claim C10: every processed cycle — whatever the per-coin availability,
and even the crashing `None` cycle — appends exactly one timestamp to the
shared log before per-coin handling (which never touches the log); along
any run from the initial state the log stays bounded by `MAX_HISTORY` and
is at least as long as every coin's history; and after one cycle with all
coins unavailable the log is strictly longer than every (empty) history. -/
theorem timestamp_per_cycle_invariants :
    (∀ (s : TrackerState) (ts : String) (prices : Option (String → Option ℚ)),
       ((processFetchResult ts prices s).state).timestamps =
         dequeAppend MAX_HISTORY s.timestamps ts) ∧
    (∀ (s : TrackerState) (c : String) (v : Option ℚ),
       ((processCoin s c v).1).timestamps = s.timestamps) ∧
    (∀ (cycles : List (String × (String → Option ℚ))),
       ((runCycles initialState cycles).1).timestamps.length ≤ MAX_HISTORY ∧
       ∀ c, (((runCycles initialState cycles).1).price_history c).length ≤
         ((runCycles initialState cycles).1).timestamps.length) ∧
    ((runCycles initialState [("t0", fNone)]).1).timestamps.length = 1 ∧
    ∀ c, (((runCycles initialState [("t0", fNone)]).1).price_history c).length = 0 := by
  refine ⟨?_, processCoin_timestamps, ?_, by decide, ?_⟩
  · intro s ts prices
    cases prices with
    | none => rfl
    | some f =>
      show ((foldCoins f COINS
        { s with timestamps := dequeAppend MAX_HISTORY s.timestamps ts }).1).timestamps = _
      rw [foldCoins_timestamps]
  · intro cycles
    exact runCycles_invariant cycles initialState (by decide) (fun c => Nat.le_refl 0)
  · intro c
    rw [runCycles_cons]
    show (((foldCoins fNone COINS
      { initialState with
        timestamps := dequeAppend MAX_HISTORY initialState.timestamps "t0" }).1).price_history c).length = 0
    rw [foldCoins_history_none fNone c rfl]
    rfl

end CryptoTracker
